import Mathlib

/-!
Verification of the core support mechanisms of the context-sherpa MCP server
(`internal/mcp/server.go`): project-root resolution, file discovery and
filtering, the size gate, batch scan orchestration, the community-rule
index cache and its compound search filter, rule import validation, rule
storage resolution and removal, and project initialization.

The Go code is shallowly embedded: filesystem, network and subprocess
effects are passed in explicitly as oracle values (the outcome the
corresponding Go standard-library call would produce), and every handler
becomes a pure function of its inputs and those oracles.  Directory paths
climbed by the root resolver are modelled as lists of path components
(the parent of a directory is `List.dropLast`; the filesystem root is `[]`,
whose parent is itself, exactly as `filepath.Dir` behaves at `/`).
Strings are Lean strings; `strings.ToLower`, `strings.TrimSpace`,
`strings.Contains` and `strings.Split` are modelled by executable
character-list functions below.
-/

/-- Model of Go `strings.ToLower` (rune-wise lowering). -/
def strToLower (s : String) : String := String.mk (s.toList.map Char.toLower)

/-- Drop leading whitespace, model of the left half of `strings.TrimSpace`. -/
def dropLeadWS (l : List Char) : List Char := l.dropWhile Char.isWhitespace

/-- Model of Go `strings.TrimSpace`. -/
def strTrim (s : String) : String :=
  String.mk ((dropLeadWS ((dropLeadWS s.toList).reverse)).reverse)

/-- Does `needle` occur as a contiguous sublist of the second argument? -/
def listHasSub (needle : List Char) : List Char → Bool
  | [] => needle.isEmpty
  | c :: rest => needle.isPrefixOf (c :: rest) || listHasSub needle rest

/-- Model of Go `strings.Contains hay needle`. -/
def strContainsSub (hay needle : String) : Bool := listHasSub needle.toList hay.toList

/-- Split a character list at every occurrence of `sep`; model of
Go `strings.Split` with a one-character separator. -/
def splitOnChar (sep : Char) : List Char → List (List Char)
  | [] => [[]]
  | c :: rest =>
    match splitOnChar sep rest with
    | [] => [[c]]
    | g :: gs => if c = sep then [] :: g :: gs else (c :: g) :: gs

/-- The final `/`-separated component of a path: model of
`strings.Split(path, "/")` followed by taking the last element, as
`importCommunityRuleHandler` derives the local filename. -/
def lastPathPart (p : String) : String :=
  String.mk ((splitOnChar '/' p.toList).getLastD [])

/-- Scan a reversed character list for the extension: stop at a path
separator, return the suffix from the final dot. -/
def extRevAux : List Char → List Char → Option (List Char)
  | [], _ => none
  | c :: rest, acc =>
    if c = '/' then none
    else if c = '.' then some ('.' :: acc)
    else extRevAux rest (c :: acc)

/-- Model of Go `filepath.Ext`: the suffix of the final path element
beginning at its final dot, or the empty string. -/
def extOf (path : String) : String :=
  match extRevAux path.toList.reverse [] with
  | none => ""
  | some l => String.mk l

/-- The result value an MCP tool handler produces:
`mcp.NewToolResultText` or `mcp.NewToolResultError`. -/
inductive ToolResult where
  | text (s : String)
  | error (s : String)
deriving DecidableEq

/-! ## SizeGate (`scanPathHandler`, the 1 MiB filter loop) -/

/-- The size-gate loop of `scanPathHandler` (server.go lines 351-376):
for each discovered file, stat it (`statSize file = none` models a stat
error, `some sz` a size of `sz` bytes); unstattable files are dropped,
files over `1024*1024` bytes go to the skipped list, the rest to the
valid list, in discovery order. -/
def filterBySize (files : List String) (statSize : String → Option Nat) :
    List String × List String :=
  match files with
  | [] => ([], [])
  | f :: rest =>
    let (v, s) := filterBySize rest statSize
    match statSize f with
    | none => (v, s)
    | some sz => if sz > 1024 * 1024 then (v, f :: s) else (f :: v, s)

/-! ## ProjectRootResolver (`findProjectRoot`) -/

/-- The walk-up loop of `findProjectRoot` (server.go lines 574-586),
over directories modelled as component lists: if the marker test `h`
holds at the current directory, return it; at the filesystem root `[]`
(whose parent equals itself) fail instead of recursing; otherwise move
to the parent `dropLast`. -/
def findRootAux (h : List String → Bool) : List String → Option (List String)
  | [] => if h [] then some [] else none
  | x :: xs =>
    if h (x :: xs) then some (x :: xs)
    else findRootAux h (x :: xs).dropLast
termination_by d => d.length
decreasing_by simp [List.dropLast_eq_take]

/-- The starting directory of `findProjectRoot`: the override when one was
supplied (`projectRootOverride != ""`), else the process working
directory. -/
def startDirOf (override : Option (List String)) (cwd : List String) : List String :=
  override.getD cwd

/-- `findProjectRoot` of server.go lines 559-589: pick the starting
directory, then walk up looking for the `sgconfig.yml` marker
(`h d = true` models `os.Stat(filepath.Join(d, "sgconfig.yml"))`
succeeding). `none` models the not-found error return. -/
def findProjectRoot (override : Option (List String)) (cwd : List String)
    (h : List String → Bool) : Option (List String) :=
  findRootAux h (startDirOf override cwd)

theorem prefix_dropLast_of_ne {p l : List String} (hp : p <+: l) (hne : p ≠ l) :
    p <+: l.dropLast := by
  have hlt : p.length < l.length := by
    rcases Nat.lt_or_ge p.length l.length with h3 | h3
    · exact h3
    · exact absurd (List.IsPrefix.eq_of_length hp
        (Nat.le_antisymm (List.IsPrefix.length_le hp) h3)) hne
  rw [List.dropLast_eq_take]
  exact List.prefix_take_iff.mpr ⟨hp, by omega⟩

theorem findRootAux_some_iff (h : List String → Bool) (d r : List String) :
    findRootAux h d = some r ↔
      (r <+: d ∧ h r = true ∧ ∀ p, p <+: d → h p = true → p <+: r) := by
  induction d using findRootAux.induct h with
  | case1 hh =>
    simp only [findRootAux, hh, if_true, Option.some.injEq]
    constructor
    · rintro rfl
      exact ⟨List.prefix_refl [], hh, fun p hp _ => hp⟩
    · rintro ⟨hr, _, _⟩
      simp [List.prefix_nil.mp hr]
  | case2 hh =>
    simp only [findRootAux, hh, if_false]
    constructor
    · intro hc; cases hc
    · rintro ⟨hr, hr2, _⟩
      rw [List.prefix_nil.mp hr] at hr2
      exact absurd hr2 (by simpa using hh)
  | case3 x xs hh =>
    simp only [findRootAux, hh, if_true, Option.some.injEq]
    constructor
    · rintro rfl
      exact ⟨List.prefix_refl _, hh, fun p hp _ => hp⟩
    · rintro ⟨hr, _, hmax⟩
      have h1 : (x :: xs) <+: r := hmax (x :: xs) (List.prefix_refl _) hh
      exact (List.IsPrefix.eq_of_length hr
        (Nat.le_antisymm (List.IsPrefix.length_le hr)
          (List.IsPrefix.length_le h1))).symm
  | case4 x xs hh ih =>
    have hh' : h (x :: xs) = false := by simpa using hh
    simp only [findRootAux, hh']
    rw [if_neg Bool.false_ne_true, ih]
    constructor
    · rintro ⟨hr, hr2, hmax⟩
      refine ⟨hr.trans (List.dropLast_prefix _), hr2, fun p hp hmark => ?_⟩
      by_cases hpe : p = x :: xs
      · rw [hpe] at hmark
        rw [hmark] at hh'
        cases hh'
      · exact hmax p (prefix_dropLast_of_ne hp hpe) hmark
    · rintro ⟨hr, hr2, hmax⟩
      have hrne : r ≠ x :: xs := by
        intro he; rw [he, hh'] at hr2; cases hr2
      refine ⟨prefix_dropLast_of_ne hr hrne, hr2, fun p hp hmark => ?_⟩
      exact hmax p (hp.trans (List.dropLast_prefix _)) hmark

theorem findRootAux_none_iff (h : List String → Bool) (d : List String) :
    findRootAux h d = none ↔ ∀ p, p <+: d → h p = false := by
  induction d using findRootAux.induct h with
  | case1 hh =>
    simp only [findRootAux, hh, if_true]
    constructor
    · intro hc; cases hc
    · intro hall
      have := hall [] (List.prefix_refl [])
      rw [hh] at this; cases this
  | case2 hh =>
    have hh' : h [] = false := by simpa using hh
    simp only [findRootAux, hh']
    rw [if_neg Bool.false_ne_true]
    constructor
    · intro _ p hp
      rw [List.prefix_nil.mp hp]; exact hh'
    · intro _; rfl
  | case3 x xs hh =>
    simp only [findRootAux, hh, if_true]
    constructor
    · intro hc; cases hc
    · intro hall
      have := hall (x :: xs) (List.prefix_refl _)
      rw [hh] at this; cases this
  | case4 x xs hh ih =>
    have hh' : h (x :: xs) = false := by simpa using hh
    simp only [findRootAux, hh']
    rw [if_neg Bool.false_ne_true, ih]
    constructor
    · intro hall p hp
      by_cases hpe : p = x :: xs
      · rw [hpe]; exact hh'
      · exact hall p (prefix_dropLast_of_ne hp hpe)
    · intro hall p hp
      exact hall p (hp.trans (List.dropLast_prefix _))

/-- C5: project-root resolution starts at the override directory when one
is provided and otherwise at the process working directory, returns a
directory exactly when it is an ancestor-or-self of the start that
directly contains the marker and is the nearest (deepest) such ancestor,
and fails exactly when no ancestor-or-self of the start contains the
marker (the filesystem root is reached without a match). -/
theorem c5_findProjectRoot_spec (override : Option (List String))
    (cwd : List String) (h : List String → Bool) :
    (∀ r, findProjectRoot override cwd h = some r ↔
        (r <+: startDirOf override cwd ∧ h r = true ∧
          ∀ p, p <+: startDirOf override cwd → h p = true → p <+: r))
  ∧ (findProjectRoot override cwd h = none ↔
        ∀ p, p <+: startDirOf override cwd → h p = false)
  ∧ (∀ s, findProjectRoot (some s) cwd h = findRootAux h s)
  ∧ findProjectRoot none cwd h = findRootAux h cwd := by
  refine ⟨fun r => ?_, ?_, fun s => rfl, rfl⟩
  · exact findRootAux_some_iff h (startDirOf override cwd) r
  · exact findRootAux_none_iff h (startDirOf override cwd)

/-- C4: the size gate partitions the discovered list into the valid files
(statted size at most the 1,048,576-byte ceiling) and the skipped files
(statted size strictly over the ceiling), both in discovery order;
a file that cannot be statted lands in neither list, and no oversize or
unstattable file stops the rest of the batch from being processed. -/
theorem c4_filterBySize_spec (files : List String) (statSize : String → Option Nat) :
    filterBySize files statSize
      = (files.filter (fun f => (statSize f).any (fun sz => decide (sz ≤ 1048576))),
         files.filter (fun f => (statSize f).any (fun sz => decide (1048576 < sz))))
  ∧ (∀ f, statSize f = none →
      f ∉ (filterBySize files statSize).1 ∧ f ∉ (filterBySize files statSize).2) := by
  have key : filterBySize files statSize
      = (files.filter (fun f => (statSize f).any (fun sz => decide (sz ≤ 1048576))),
         files.filter (fun f => (statSize f).any (fun sz => decide (1048576 < sz)))) := by
    induction files with
    | nil => rfl
    | cons f rest ih =>
      cases hs : statSize f with
      | none => simp [filterBySize, hs, ih]
      | some sz =>
        by_cases hgt : sz > 1024 * 1024
        · have h1 : (decide (sz ≤ 1048576)) = false := by
            simp only [decide_eq_false_iff_not]; omega
          have h2 : (decide (1048576 < sz)) = true := by
            simp only [decide_eq_true_eq]; omega
          simp [filterBySize, hs, ih, hgt, h1, h2]
        · have h1 : (decide (sz ≤ 1048576)) = true := by
            simp only [decide_eq_true_eq]; omega
          have h2 : (decide (1048576 < sz)) = false := by
            simp only [decide_eq_false_iff_not]; omega
          simp [filterBySize, hs, ih, hgt, h1, h2]
  refine ⟨key, fun f hf => ?_⟩
  rw [key]
  constructor
  · intro hmem
    have := List.of_mem_filter hmem
    rw [hf] at this
    cases this
  · intro hmem
    have := List.of_mem_filter hmem
    rw [hf] at this
    cases this

/-! ## ScanExecutor (`scanFileBatch`, `scanCodeHandler`) -/

/-- What `cmd.CombinedOutput()` produced for one subprocess invocation:
the combined stdout/stderr stream, and the Go error value (`none` models a
zero exit status; `some` models any non-nil error, in particular the
nonzero exit status ast-grep uses to signal that violations were found). -/
structure RunOutcome where
  output : String
  runErr : Option String
deriving DecidableEq

/-- `scanFileBatch` of server.go lines 505-526: an empty батch yields the
literal empty JSON array; otherwise the engine is invoked once with
`scan --config <cfg> <files...> --json` from the project root and the
combined output is returned; the subprocess error is only logged,
never returned. -/
def scanFileBatch (files : List String) (sgconfigStr projectRoot sgPath : String)
    (run : String → List String → String → RunOutcome) : Except String String :=
  if files.isEmpty then .ok "[]"
  else
    let args := ["scan", "--config", sgconfigStr] ++ files ++ ["--json"]
    .ok (run sgPath args projectRoot).output

/-- The effect oracles `scanCodeHandler` consumes, in the order the Go code
performs them: the `os.Stat` existence check of the sgconfig file, temp-file
creation (given the language, for the extension), writing the code into it,
closing it, extracting the embedded sg binary, resolving the project root,
and running the subprocess (binary path, argument list, working directory). -/
structure ScanCodeEnv where
  configExists : Bool
  tmpCreate : String → Except String String
  tmpWrite : String → Option String
  tmpClose : Option String
  extract : Except String String
  projectRoot : Except String String
  run : String → List String → String → RunOutcome

/-- `scanCodeHandler` of server.go lines 226-288: materialize the inline
code into a temp file, extract the engine binary, resolve the root, invoke
the engine once and return its combined output verbatim as a text result;
the subprocess error from `CombinedOutput` is deliberately ignored. -/
def scanCodeHandler (env : ScanCodeEnv) (code language sgconfigStr : String) : ToolResult :=
  if !env.configExists then
    .text ("Error: Configuration file \x27" ++ sgconfigStr ++
      "\x27 not found. Please run the \x27initialize_ast_grep\x27 tool first to set up the project.")
  else
    match env.tmpCreate language with
    | .error e => .error ("Error creating temporary file: " ++ e)
    | .ok tmpName =>
      match env.tmpWrite code with
      | some e => .error ("Error writing to temporary file: " ++ e)
      | none =>
        match env.tmpClose with
        | some e => .error ("Error closing temporary file: " ++ e)
        | none =>
          match env.extract with
          | .error e => .error ("Error extracting sg binary: " ++ e)
          | .ok sgPath =>
            match env.projectRoot with
            | .error e => .error e
            | .ok root =>
              .text (env.run sgPath ["scan", "--config", sgconfigStr, tmpName, "--json"] root).output

/-- C1: neither the batch nor the inline scan treats a nonzero engine exit
status as a failure — the combined output is returned verbatim whatever
`runErr` holds (the result only ever reads `.output`); the empty batch
short-circuits to the empty array; and the inability to produce the engine
binary at all (the extraction step) is a hard error result, unlike
"violations found". -/
theorem c1_scan_exit_status_spec (env : ScanCodeEnv)
    (code language sgconfigStr projectRoot sgPath : String)
    (files : List String)
    (run : String → List String → String → RunOutcome) :
    (files ≠ [] → scanFileBatch files sgconfigStr projectRoot sgPath run
        = .ok (run sgPath (["scan", "--config", sgconfigStr] ++ files ++ ["--json"])
            projectRoot).output)
  ∧ scanFileBatch [] sgconfigStr projectRoot sgPath run = .ok "[]"
  ∧ (∀ e tmpName,
        env.configExists = true → env.tmpCreate language = .ok tmpName →
        env.tmpWrite code = none → env.tmpClose = none →
        env.extract = .error e →
        scanCodeHandler env code language sgconfigStr
          = .error ("Error extracting sg binary: " ++ e))
  ∧ (∀ tmpName sgPath2 root,
        env.configExists = true → env.tmpCreate language = .ok tmpName →
        env.tmpWrite code = none → env.tmpClose = none →
        env.extract = .ok sgPath2 → env.projectRoot = .ok root →
        scanCodeHandler env code language sgconfigStr
          = .text (env.run sgPath2
              ["scan", "--config", sgconfigStr, tmpName, "--json"] root).output) := by
  refine ⟨?_, rfl, ?_, ?_⟩
  · intro hne
    cases files with
    | nil => exact absurd rfl hne
    | cons f rest => rfl
  · intro e tmpName hc ht hw hcl he
    simp [scanCodeHandler, hc, ht, hw, hcl, he]
  · intro tmpName sgPath2 root hc ht hw hcl he hr
    simp [scanCodeHandler, hc, ht, hw, hcl, he, hr]

/-! ## CommunityRuleIndex cache (`fetchCommunityRuleIndex`) -/

/-- A rule entry of the community index (`CommunityRule` in server.go). -/
structure CommunityRule where
  id : String
  tool : String
  path : String
  language : String
  author : String
  tags : List String
  description : String
deriving DecidableEq

/-- The community index document (`CommunityRuleIndex` in server.go):
`{version, rules[]}`. -/
structure CommunityRuleIndex where
  version : Int
  rules : List CommunityRule
deriving DecidableEq

/-- `cacheTTL = 5 * time.Minute`, in nanoseconds. -/
def cacheTTL : Nat := 5 * 60 * 1000000000

/-- The process-wide cache pair: `communityRuleCache` and `cacheTimestamp`
(nanoseconds). -/
structure CacheState where
  communityRuleCache : Option CommunityRuleIndex
  cacheTimestamp : Nat
deriving DecidableEq

/-- What the single `http.Get` of the index URL produced: a transport
error, or a response with its status code and the outcome of JSON-decoding
its body. -/
inductive FetchNet where
  | netErr (msg : String)
  | resp (status : Nat) (body : Except String CommunityRuleIndex)

/-- The outcome of one `fetchCommunityRuleIndex` call: the returned value
or error, the cache state afterwards, and how many HTTP GETs were issued. -/
structure FetchOutcome where
  result : Except String CommunityRuleIndex
  state : CacheState
  gets : Nat

/-- The network path of `fetchCommunityRuleIndex` (server.go lines 727-748):
one GET; a transport error, a non-200 status or a decode failure each
surface an error and leave the cache alone; a decoded body replaces the
cached snapshot and timestamp. -/
def fetchFresh (st : CacheState) (now : Nat) (net : FetchNet) : FetchOutcome :=
  match net with
  | .netErr m => ⟨.error ("failed to fetch community rule index: " ++ m), st, 1⟩
  | .resp status body =>
    if status ≠ 200 then
      ⟨.error ("failed to fetch community rule index: HTTP " ++ toString status), st, 1⟩
    else
      match body with
      | .error m => ⟨.error ("failed to parse community rule index: " ++ m), st, 1⟩
      | .ok idx => ⟨.ok idx, ⟨some idx, now⟩, 1⟩

/-- `fetchCommunityRuleIndex` of server.go lines 718-749: a cached snapshot
younger than the TTL is returned with no network call; otherwise the index
is fetched afresh. -/
def fetchCommunityRuleIndex (st : CacheState) (now : Nat) (net : FetchNet) : FetchOutcome :=
  match st.communityRuleCache with
  | some idx =>
    if now - st.cacheTimestamp < cacheTTL then ⟨.ok idx, st, 0⟩
    else fetchFresh st now net
  | none => fetchFresh st now net

/-- C2: with a cached snapshot younger than the TTL the cache is returned
unchanged with zero GETs; otherwise exactly one GET is issued, and a
transport error, non-200 status or malformed body each surface an error
while leaving the previous snapshot and timestamp untouched; only a
decoded 200 response replaces the snapshot and timestamp and is returned. -/
theorem c2_fetchCommunityRuleIndex_spec (st : CacheState) (now : Nat) (net : FetchNet) :
    (∀ idx, st.communityRuleCache = some idx → now - st.cacheTimestamp < cacheTTL →
        fetchCommunityRuleIndex st now net = ⟨.ok idx, st, 0⟩)
  ∧ ((st.communityRuleCache = none ∨ cacheTTL ≤ now - st.cacheTimestamp) →
        (fetchCommunityRuleIndex st now net).gets = 1)
  ∧ (∀ m, (st.communityRuleCache = none ∨ cacheTTL ≤ now - st.cacheTimestamp) →
        net = .netErr m →
        fetchCommunityRuleIndex st now net
          = ⟨.error ("failed to fetch community rule index: " ++ m), st, 1⟩)
  ∧ (∀ status body, (st.communityRuleCache = none ∨ cacheTTL ≤ now - st.cacheTimestamp) →
        net = .resp status body → status ≠ 200 →
        fetchCommunityRuleIndex st now net
          = ⟨.error ("failed to fetch community rule index: HTTP " ++ toString status), st, 1⟩)
  ∧ (∀ m, (st.communityRuleCache = none ∨ cacheTTL ≤ now - st.cacheTimestamp) →
        net = .resp 200 (.error m) →
        fetchCommunityRuleIndex st now net
          = ⟨.error ("failed to parse community rule index: " ++ m), st, 1⟩)
  ∧ (∀ idx, (st.communityRuleCache = none ∨ cacheTTL ≤ now - st.cacheTimestamp) →
        net = .resp 200 (.ok idx) →
        fetchCommunityRuleIndex st now net = ⟨.ok idx, ⟨some idx, now⟩, 1⟩) := by
  have hmiss : (st.communityRuleCache = none ∨ cacheTTL ≤ now - st.cacheTimestamp) →
      fetchCommunityRuleIndex st now net = fetchFresh st now net := by
    rintro (hc | ht)
    · simp [fetchCommunityRuleIndex, hc]
    · cases hc : st.communityRuleCache with
      | none => simp [fetchCommunityRuleIndex, hc]
      | some idx =>
        simp only [fetchCommunityRuleIndex, hc]
        rw [if_neg (by omega)]
  refine ⟨?_, ?_, ?_, ?_, ?_, ?_⟩
  · intro idx hc ht
    simp [fetchCommunityRuleIndex, hc, ht]
  · intro hm
    rw [hmiss hm]
    cases net with
    | netErr m => rfl
    | resp status body =>
      by_cases hs : status = 200
      · subst hs
        cases body <;> simp [fetchFresh]
      · simp [fetchFresh, hs]
  · intro m hm hn
    rw [hmiss hm, hn]; rfl
  · intro status body hm hn hs
    rw [hmiss hm, hn]
    simp [fetchFresh, hs]
  · intro m hm hn
    rw [hmiss hm, hn]; rfl
  · intro idx hm hn
    rw [hmiss hm, hn]; rfl

/-! ## Project initialization (`initializeAstGrepHandler`) -/

/-- The exact content `initializeAstGrepHandler` writes to sgconfig.yml
(the raw Go string literal, including its trailing newline and space). -/
def defaultSgconfigContent : String := "ruleDirs:\n  - rules\n "

/-- `initializeAstGrepHandler` of server.go lines 685-715: resolve the
project root (override, else cwd), `MkdirAll` the `rules` directory, then
unconditionally write the default sgconfig.yml content — there is no
existence check of either target.  The filesystem is a map from path to
content; the handler returns (result, the rules directory it ensured,
the filesystem afterwards). -/
def initializeAstGrepHandler (override : Option String) (cwd : String)
    (fs : String → Option String) (mkdirErr writeErr : Option String) :
    ToolResult × String × (String → Option String) :=
  let projectRoot := override.getD cwd
  let rulesDir := projectRoot ++ "/rules"
  match mkdirErr with
  | some e => (.error ("Error creating rules directory: " ++ e), rulesDir, fs)
  | none =>
    let sgconfigPath := projectRoot ++ "/sgconfig.yml"
    match writeErr with
    | some e => (.error ("Error creating sgconfig.yml: " ++ e), rulesDir, fs)
    | none =>
      (.text "ast-grep project initialized successfully. Created sgconfig.yml and rules/ directory.",
       rulesDir,
       fun p => if p = sgconfigPath then some defaultSgconfigContent else fs p)

/-- C10: when the directory creation and the write succeed, initialization
reports success and leaves the default content at `<root>/sgconfig.yml`
whatever the filesystem held there before — the same success result for
every prior state, so an already-initialized project is silently
overwritten with the default; other paths are untouched, and the `rules`
directory under the root is the one ensured. -/
theorem c10_initializeAstGrep_spec (override : Option String) (cwd : String)
    (fs fs' : String → Option String) :
    ((initializeAstGrepHandler override cwd fs none none).1
        = .text "ast-grep project initialized successfully. Created sgconfig.yml and rules/ directory.")
  ∧ ((initializeAstGrepHandler override cwd fs none none).2.2
        (override.getD cwd ++ "/sgconfig.yml") = some defaultSgconfigContent)
  ∧ ((initializeAstGrepHandler override cwd fs none none).1
        = (initializeAstGrepHandler override cwd fs' none none).1)
  ∧ ((initializeAstGrepHandler override cwd fs none none).2.1
        = override.getD cwd ++ "/rules")
  ∧ (∀ p, p ≠ override.getD cwd ++ "/sgconfig.yml" →
        (initializeAstGrepHandler override cwd fs none none).2.2 p = fs p) := by
  refine ⟨rfl, by simp [initializeAstGrepHandler], rfl, rfl, fun p hp => ?_⟩
  simp [initializeAstGrepHandler, hp]

/-! ## Community rule search (`searchCommunityRulesHandler`) -/

/-- The nested tag loop of the handler (server.go lines 791-809): the rule
must contain every required tag, comparing the rule's tags lowercased
against the already-normalized required tag. -/
def ruleHasAllTags (r : CommunityRule) (tags : List String) : Bool :=
  tags.all fun requiredTag => r.tags.any fun ruleTag => strToLower ruleTag == requiredTag

/-- The first filter pass of the handler (server.go lines 783-813): drop a
rule when a language filter is active and differs from the rule's
lowercased language, or when tags were requested and one is missing;
otherwise keep it, in order. -/
def filterLangTags : List CommunityRule → String → List String → List CommunityRule
  | [], _, _ => []
  | r :: rest, language, tags =>
    if language ≠ "" ∧ strToLower r.language ≠ language then
      filterLangTags rest language tags
    else if tags ≠ [] ∧ ruleHasAllTags r tags = false then
      filterLangTags rest language tags
    else r :: filterLangTags rest language tags

/-- The second filter pass of the handler (server.go lines 816-838): keep a
rule whose lowercased id or description contains the lowercased query, or
failing that whose tags contain it; each kept rule is appended once. -/
def filterQuery : List CommunityRule → String → List CommunityRule
  | [], _ => []
  | r :: rest, queryLower =>
    if strContainsSub (strToLower r.id) queryLower
        || strContainsSub (strToLower r.description) queryLower then
      r :: filterQuery rest queryLower
    else if r.tags.any fun tag => strContainsSub (strToLower tag) queryLower then
      r :: filterQuery rest queryLower
    else filterQuery rest queryLower

/-- The search pipeline of `searchCommunityRulesHandler` over the current
snapshot's rule list: normalize the language (lowercased) and the tag list
(each entry trimmed and lowercased, lines 760-774), apply the
language-and-tags pass, then — only for a nonempty query — the free-text
pass. -/
def searchCommunityRules (rules : List CommunityRule) (query langRaw : String)
    (tagsRaw : List String) : List CommunityRule :=
  let language := strToLower langRaw
  let tags := tagsRaw.map fun t => strToLower (strTrim t)
  let matchingRules := filterLangTags rules language tags
  if query ≠ "" then filterQuery matchingRules (strToLower query) else matchingRules

/-- The membership predicate the claim states: the entry's language equals
the filter case-insensitively (when one is given), the entry carries every
requested tag under case-insensitive exact membership, and the query is a
case-insensitive substring of the id, the description or some tag. -/
def searchSpecPred (query langRaw : String) (tagsRaw : List String)
    (r : CommunityRule) : Bool :=
  (langRaw == "" || strToLower r.language == strToLower langRaw)
  && (tagsRaw.all fun t => r.tags.any fun rt => strToLower rt == strToLower (strTrim t))
  && (strContainsSub (strToLower r.id) (strToLower query)
      || strContainsSub (strToLower r.description) (strToLower query)
      || r.tags.any fun tag => strContainsSub (strToLower tag) (strToLower query))

theorem listHasSub_nil (l : List Char) : listHasSub [] l = true := by
  induction l with
  | nil => rfl
  | cons c rest ih => simp [listHasSub, List.isPrefixOf]

theorem strContainsSub_empty (s : String) : strContainsSub s "" = true :=
  listHasSub_nil s.toList

theorem strToLower_eq_empty_iff (s : String) : strToLower s = "" ↔ s = "" := by
  constructor
  · intro h
    cases s with
    | mk data =>
      have h2 : data.map Char.toLower = [] := by
        have h3 := congrArg String.toList h
        simpa [strToLower, String.toList] using h3
      have h4 : data = [] := by simpa using h2
      simp [h4]
  · intro h; subst h; rfl

theorem filterLangTags_eq_filter (rules : List CommunityRule) (language : String)
    (tags : List String) :
    filterLangTags rules language tags
      = rules.filter fun r =>
          (language == "" || strToLower r.language == language)
          && ruleHasAllTags r tags := by
  induction rules with
  | nil => rfl
  | cons r rest ih =>
    by_cases h1 : language ≠ "" ∧ strToLower r.language ≠ language
    · have hb1 : (language == "") = false := by simp [h1.1]
      have hb2 : (strToLower r.language == language) = false := by simp [h1.2]
      simp [filterLangTags, h1, ih, hb1, hb2]
    · by_cases h2 : tags ≠ [] ∧ ruleHasAllTags r tags = false
      · have hb : ruleHasAllTags r tags = false := h2.2
        simp [filterLangTags, h1, h2, ih, hb]
      · have hb3 : (language == "" || strToLower r.language == language) = true := by
          rcases not_and_or.mp h1 with hc | hc
          · simp [not_not.mp hc]
          · simp [not_not.mp hc]
        have hb4 : ruleHasAllTags r tags = true := by
          rcases not_and_or.mp h2 with hc | hc
          · have he : tags = [] := not_not.mp hc
            simp [he, ruleHasAllTags]
          · simpa using hc
        simp [filterLangTags, h1, h2, ih, hb3, hb4]

theorem filterQuery_eq_filter (rules : List CommunityRule) (queryLower : String) :
    filterQuery rules queryLower
      = rules.filter fun r =>
          strContainsSub (strToLower r.id) queryLower
          || strContainsSub (strToLower r.description) queryLower
          || r.tags.any fun tag => strContainsSub (strToLower tag) queryLower := by
  induction rules with
  | nil => rfl
  | cons r rest ih =>
    by_cases h1 : (strContainsSub (strToLower r.id) queryLower
        || strContainsSub (strToLower r.description) queryLower) = true
    · simp only [filterQuery, h1, if_true, List.filter_cons]
      rw [ih]
      have : (strContainsSub (strToLower r.id) queryLower
          || strContainsSub (strToLower r.description) queryLower
          || r.tags.any fun tag => strContainsSub (strToLower tag) queryLower) = true := by
        simp only [Bool.or_assoc] at h1 ⊢
        rcases Bool.or_eq_true_iff.mp h1 with hc | hc
        · simp [hc]
        · simp [hc]
      simp [this]
    · have hb1 : (strContainsSub (strToLower r.id) queryLower
          || strContainsSub (strToLower r.description) queryLower) = false := by
        simpa using h1
      by_cases h2 : (r.tags.any fun tag => strContainsSub (strToLower tag) queryLower) = true
      · simp [filterQuery, hb1, h2, ih]
      · have hb2 : (r.tags.any fun tag => strContainsSub (strToLower tag) queryLower) = false := by
          simpa using h2
        simp [filterQuery, hb1, hb2, ih]

/-- C3: the search over a snapshot equals a single ordered filter by the
claim's predicate — language equality (case-insensitive, only when a filter
is given), all-tags membership (case-insensitive, exact), and the
case-insensitive substring test of the query against id, description or a
tag; hence each matching entry appears exactly as often as in the snapshot
(at most once for distinct entries), in the snapshot's original order with
no ranking. -/
theorem c3_searchCommunityRules_spec (rules : List CommunityRule)
    (query langRaw : String) (tagsRaw : List String) :
    searchCommunityRules rules query langRaw tagsRaw
        = rules.filter (searchSpecPred query langRaw tagsRaw)
  ∧ List.Sublist (searchCommunityRules rules query langRaw tagsRaw) rules
  ∧ (∀ r, r ∈ searchCommunityRules rules query langRaw tagsRaw ↔
        (r ∈ rules ∧ searchSpecPred query langRaw tagsRaw r = true)) := by
  have hmap : ∀ r : CommunityRule,
      ruleHasAllTags r (tagsRaw.map fun t => strToLower (strTrim t))
        = (tagsRaw.all fun t => r.tags.any fun rt => strToLower rt == strToLower (strTrim t)) := by
    intro r
    unfold ruleHasAllTags
    rw [List.all_map]
    rfl
  have hlang : ∀ r : CommunityRule,
      (strToLower langRaw == "" || strToLower r.language == strToLower langRaw)
        = (langRaw == "" || strToLower r.language == strToLower langRaw) := by
    intro r
    by_cases hl : langRaw = ""
    · subst hl; rfl
    · have h1 : (langRaw == "") = false := by simp [hl]
      have h2 : (strToLower langRaw == "") = false := by
        simp only [beq_eq_false_iff_ne, ne_eq]
        intro hc
        exact hl ((strToLower_eq_empty_iff langRaw).mp hc)
      rw [h1, h2]
  have key : searchCommunityRules rules query langRaw tagsRaw
      = rules.filter (searchSpecPred query langRaw tagsRaw) := by
    unfold searchCommunityRules
    by_cases hq : query = ""
    · subst hq
      simp only [ne_eq, not_true_eq_false, if_false, reduceIte, filterLangTags_eq_filter]
      apply List.filter_congr
      intro r _
      rw [hmap, hlang]
      have hq1 : strToLower "" = "" := rfl
      simp [searchSpecPred, hq1, strContainsSub_empty]
    · simp only [ne_eq, hq, not_false_eq_true, if_true, reduceIte,
        filterLangTags_eq_filter, filterQuery_eq_filter, List.filter_filter]
      apply List.filter_congr
      intro r _
      rw [hmap, hlang]
      simp only [searchSpecPred]
      rw [Bool.and_comm]
  refine ⟨key, ?_, fun r => ?_⟩
  · rw [key]; exact List.filter_sublist rules
  · rw [key]
    simp [List.mem_filter]

/-! ## FileDiscoveryEngine (`discoverFiles`, `matchesLanguage`) -/

/-- `matchesLanguage` of server.go lines 480-502: map the lowercased
`filepath.Ext` of the path through the fixed language table; any language
outside the table falls to the default branch and never matches. -/
def matchesLanguage (filePath language : String) : Bool :=
  let ext := strToLower (extOf filePath)
  match language with
  | "go" => ext == ".go"
  | "python" => ext == ".py"
  | "javascript" => ext == ".js"
  | "typescript" => ext == ".ts"
  | "rust" => ext == ".rs"
  | "java" => ext == ".java"
  | "cpp" | "c++" => ext == ".cpp" || ext == ".cc" || ext == ".cxx"
  | "c" => ext == ".c" || ext == ".h"
  | _ => false

/-- One visit of a `filepath.Walk` callback: the visited path, whether it
is a directory entry, and the error the walk passed in (if any). -/
structure WalkEntry where
  path : String
  isDir : Bool
  err : Option String
deriving DecidableEq

/-- The directory-walk collector of `discoverFiles` (the callback of
server.go lines 402-419 and 426-443): a callback error aborts the walk
with that error; directories are skipped; a file failing an active
language filter is skipped; other files are collected in visit order. -/
def walkFiles : List WalkEntry → String → Except String (List String)
  | [], _ => .ok []
  | e :: rest, languageFilter =>
    match e.err with
    | some m => .error m
    | none =>
      if e.isDir then walkFiles rest languageFilter
      else if languageFilter ≠ "" ∧ matchesLanguage e.path languageFilter = false then
        walkFiles rest languageFilter
      else
        match walkFiles rest languageFilter with
        | .error m => .error m
        | .ok files => .ok (e.path :: files)

/-- The glob-branch collector of `discoverFiles` (the callback of
server.go lines 449-474): as `walkFiles`, but a visited file is kept only
when `filepath.Match pattern path` answers true (a match error aborts the
walk), with the language filter applied to matches. -/
def walkGlob : List WalkEntry → (String → String → Except String Bool) → String → String →
    Except String (List String)
  | [], _, _, _ => .ok []
  | e :: rest, matchPat, pattern, languageFilter =>
    match e.err with
    | some m => .error m
    | none =>
      if e.isDir then walkGlob rest matchPat pattern languageFilter
      else
        match matchPat pattern e.path with
        | .error m => .error m
        | .ok matched =>
          if matched then
            if languageFilter ≠ "" ∧ matchesLanguage e.path languageFilter = false then
              walkGlob rest matchPat pattern languageFilter
            else
              match walkGlob rest matchPat pattern languageFilter with
              | .error m => .error m
              | .ok files => .ok (e.path :: files)
          else walkGlob rest matchPat pattern languageFilter

/-- The filesystem oracles `discoverFiles` consumes: `stat` answers
`os.Stat` (`none` a stat error, `some b` success with `IsDir() = b`);
`walkCwd` is the entry sequence a walk of `"."` visits; `walkAt d` the
sequence for a walk rooted at `d`; `matchPat pat name` is
`filepath.Match` (`.error` models `ErrBadPattern`). -/
structure DiscFS where
  stat : String → Option Bool
  walkCwd : List WalkEntry
  walkAt : String → List WalkEntry
  matchPat : String → String → Except String Bool

/-- `discoverFiles` of server.go lines 388-477, three branches in source
order: a stat hit on a non-directory returns that one file (or nothing
under an excluding language filter); `"."` or a stat hit on a directory
walks that tree; everything else walks the current directory and keeps
the paths matching the expression as a glob pattern. -/
def discoverFiles (fs : DiscFS) (path languageFilter : String) :
    Except String (List String) :=
  match fs.stat path with
  | some false =>
    if languageFilter ≠ "" ∧ matchesLanguage path languageFilter = false then .ok []
    else .ok [path]
  | _ =>
    if path = "." then walkFiles fs.walkCwd languageFilter
    else
      match fs.stat path with
      | some true => walkFiles (fs.walkAt path) languageFilter
      | _ => walkGlob fs.walkCwd fs.matchPat path languageFilter

theorem walkFiles_err (pre : List WalkEntry) (e : WalkEntry) (post : List WalkEntry)
    (lang m : String) (hpre : ∀ x ∈ pre, x.err = none) (he : e.err = some m) :
    walkFiles (pre ++ e :: post) lang = .error m := by
  induction pre with
  | nil => simp [walkFiles, he]
  | cons x rest ih =>
    have hx : x.err = none := hpre x (List.mem_cons_self x rest)
    have ih2 := ih fun y hy => hpre y (List.mem_cons_of_mem x hy)
    simp only [List.cons_append, walkFiles, hx]
    by_cases hd : x.isDir = true
    · simp [hd, ih2]
    · have hd2 : x.isDir = false := by simpa using hd
      by_cases hf : lang ≠ "" ∧ matchesLanguage x.path lang = false
      · simp [hd2, hf, ih2]
      · simp [hd2, hf, ih2]

theorem walkFiles_empty_of_unmatched (entries : List WalkEntry) (lang : String)
    (hlang : lang ≠ "") (hm : ∀ p, matchesLanguage p lang = false)
    (hall : ∀ e ∈ entries, e.err = none) : walkFiles entries lang = .ok [] := by
  induction entries with
  | nil => rfl
  | cons e rest ih =>
    have he : e.err = none := hall e (List.mem_cons_self e rest)
    have ih2 := ih fun y hy => hall y (List.mem_cons_of_mem e hy)
    simp only [walkFiles, he]
    by_cases hd : e.isDir = true
    · simp [hd, ih2]
    · have hd2 : e.isDir = false := by simpa using hd
      have hf : lang ≠ "" ∧ matchesLanguage e.path lang = false := ⟨hlang, hm e.path⟩
      simp [hd2, hf, ih2]

theorem walkGlob_empty_of_no_match (entries : List WalkEntry)
    (stat : String → Option Bool) (matchPat : String → String → Except String Bool)
    (pattern lang : String)
    (heq : ∀ s, matchPat pattern s = .ok (pattern == s))
    (hall : ∀ e ∈ entries, e.err = none)
    (hstat : ∀ e ∈ entries, e.isDir = false → stat e.path ≠ none)
    (hnex : stat pattern = none) :
    walkGlob entries matchPat pattern lang = .ok [] := by
  induction entries with
  | nil => rfl
  | cons e rest ih =>
    have he : e.err = none := hall e (List.mem_cons_self e rest)
    have ih2 := ih (fun y hy => hall y (List.mem_cons_of_mem e hy))
      (fun y hy => hstat y (List.mem_cons_of_mem e hy))
    simp only [walkGlob, he]
    by_cases hd : e.isDir = true
    · simp [hd, ih2]
    · have hd2 : e.isDir = false := by simpa using hd
      have hne : pattern ≠ e.path := by
        intro hpe
        exact hstat e (List.mem_cons_self e rest) hd2 (hpe ▸ hnex)
      have hb : (pattern == e.path) = false := by simpa using hne
      rw [heq e.path, hb]
      simp [hd2, ih2]

/-- C6: discovery tries the three branches in order — a stat hit on a
non-directory yields that single file (or nothing under an excluding
language filter); the current directory or a stat hit on a directory walks
the matching tree with directories skipped and the filter applied; any
other path expression walks the current directory testing each visited
file against the expression as a glob; when the expression names nothing
(its stat fails) and contains no glob power (the matcher accepts only the
expression itself), an error-free walk yields the empty result rather than
a stat error; and a walk error reached mid-traversal surfaces as the hard
error of the whole discovery. -/
theorem c6_discoverFiles_spec (fs : DiscFS) (path lang : String) :
    (fs.stat path = some false →
        discoverFiles fs path lang
          = (if lang ≠ "" ∧ matchesLanguage path lang = false then .ok [] else .ok [path]))
  ∧ (fs.stat path ≠ some false → path = "." →
        discoverFiles fs path lang = walkFiles fs.walkCwd lang)
  ∧ (fs.stat path = some true → path ≠ "." →
        discoverFiles fs path lang = walkFiles (fs.walkAt path) lang)
  ∧ (fs.stat path = none → path ≠ "." →
        discoverFiles fs path lang = walkGlob fs.walkCwd fs.matchPat path lang)
  ∧ (fs.stat path = none → path ≠ "." →
        (∀ s, fs.matchPat path s = .ok (path == s)) →
        (∀ e ∈ fs.walkCwd, e.err = none) →
        (∀ e ∈ fs.walkCwd, e.isDir = false → fs.stat e.path ≠ none) →
        discoverFiles fs path lang = .ok [])
  ∧ (∀ pre e post m, fs.stat path ≠ some false → path = "." →
        fs.walkCwd = pre ++ e :: post → (∀ x ∈ pre, x.err = none) →
        e.err = some m → discoverFiles fs path lang = .error m) := by
  refine ⟨?_, ?_, ?_, ?_, ?_, ?_⟩
  · intro hs
    simp [discoverFiles, hs]
  · intro hs hdot
    subst hdot
    cases hv : fs.stat "." with
    | none => simp [discoverFiles, hv]
    | some b =>
      cases b with
      | false => exact absurd hv hs
      | true => simp [discoverFiles, hv]
  · intro hs hdot
    simp [discoverFiles, hs, hdot]
  · intro hs hdot
    simp [discoverFiles, hs, hdot]
  · intro hs hdot heq hall hstat
    have h4 : discoverFiles fs path lang = walkGlob fs.walkCwd fs.matchPat path lang := by
      simp [discoverFiles, hs, hdot]
    rw [h4]
    exact walkGlob_empty_of_no_match fs.walkCwd fs.stat fs.matchPat path lang heq hall hstat hs
  · intro pre e post m hs hdot hw hpre he
    subst hdot
    have h2 : discoverFiles fs "." lang = walkFiles fs.walkCwd lang := by
      cases hv : fs.stat "." with
      | none => simp [discoverFiles, hv]
      | some b =>
        cases b with
        | false => exact absurd hv hs
        | true => simp [discoverFiles, hv]
    rw [h2, hw]
    exact walkFiles_err pre e post lang m hpre he

/-- The nine language tags the extension table of `matchesLanguage`
recognizes. -/
def recognizedLanguages : List String :=
  ["go", "python", "javascript", "typescript", "rust", "java", "cpp", "c++", "c"]

/-- C9: the language predicate answers false on every path for any tag
outside the fixed table, so discovery under a nonempty unrecognized filter
produces the empty list — not an error and not an unfiltered list — for a
path statting to a file and for (error-free) walks of the current
directory or of a directory path. -/
theorem c9_unrecognized_language_spec (fs : DiscFS) (path lang : String) :
    (∀ p l, l ∉ recognizedLanguages → matchesLanguage p l = false)
  ∧ (lang ∉ recognizedLanguages → lang ≠ "" →
      ((fs.stat path = some false → discoverFiles fs path lang = .ok [])
        ∧ (path = "." → fs.stat path ≠ some false →
            (∀ e ∈ fs.walkCwd, e.err = none) → discoverFiles fs path lang = .ok [])
        ∧ (fs.stat path = some true → path ≠ "." →
            (∀ e ∈ fs.walkAt path, e.err = none) →
            discoverFiles fs path lang = .ok []))) := by
  have hfalse : ∀ p l, l ∉ recognizedLanguages → matchesLanguage p l = false := by
    intro p l hl
    unfold matchesLanguage
    split <;> simp_all [recognizedLanguages]
  refine ⟨hfalse, fun hl hne => ⟨?_, ?_, ?_⟩⟩
  · intro hs
    have hcond : lang ≠ "" ∧ matchesLanguage path lang = false := ⟨hne, hfalse path lang hl⟩
    simp [discoverFiles, hs, hcond]
  · intro hdot hs hall
    subst hdot
    have h2 : discoverFiles fs "." lang = walkFiles fs.walkCwd lang := by
      cases hv : fs.stat "." with
      | none => simp [discoverFiles, hv]
      | some b =>
        cases b with
        | false => exact absurd hv hs
        | true => simp [discoverFiles, hv]
    rw [h2]
    exact walkFiles_empty_of_unmatched fs.walkCwd lang hne (fun p => hfalse p lang hl) hall
  · intro hs hdot hall
    have h2 : discoverFiles fs path lang = walkFiles (fs.walkAt path) lang := by
      simp [discoverFiles, hs, hdot]
    rw [h2]
    exact walkFiles_empty_of_unmatched (fs.walkAt path) lang hne (fun p => hfalse p lang hl) hall

/-! ## Rule import validation (`validateAstGrepRule`, `importCommunityRuleHandler`) -/

/-- The fields `yaml.Unmarshal` fills into the `AstGrepRule` struct that
the validator inspects: a missing YAML key leaves the field empty. -/
structure ParsedRule where
  id : String
  language : String
deriving DecidableEq

/-- `validateAstGrepRule` of server.go lines 1028-1044: the body must
unmarshal (`parse` is the YAML decoding oracle), and the decoded `id` and
`language` fields must be non-empty; the error message names the defect. -/
def validateAstGrepRule (parse : String → Except String ParsedRule)
    (yamlContent : String) : Except String Unit :=
  match parse yamlContent with
  | .error e => .error ("could not parse YAML: " ++ e)
  | .ok rule =>
    if rule.id = "" then .error "rule \x27id\x27 is missing or empty"
    else if rule.language = "" then .error "rule \x27language\x27 is missing or empty"
    else .ok ()

/-- The effect oracles of `importCommunityRuleHandler`: the index fetch,
the rule-body fetch keyed by the entry's stored path (the URL is the fixed
registry base joined with that path), the YAML decoding, the rule-directory
resolution, and the outcome of the final `os.WriteFile`. -/
structure ImportEnv where
  fetchIndex : Except String CommunityRuleIndex
  fetchBody : String → Except String String
  parse : String → Except String ParsedRule
  ruleDir : Except String String
  writeErr : Option String

/-- `importCommunityRuleHandler` of server.go lines 939-1024: fetch the
index, look the id up (first match), fetch the body, validate it, resolve
the rule directory, and write the body to `<ruleDir>/<filename>` where the
filename is the last `/`-separated component of the entry's path.  The
second component of the result records every `os.WriteFile` call the
handler performed (path and content). -/
def importCommunityRuleHandler (env : ImportEnv) (ruleID : String) :
    ToolResult × List (String × String) :=
  match env.fetchIndex with
  | .error e => (.error ("Failed to fetch community rules: " ++ e), [])
  | .ok index =>
    match index.rules.find? (fun rule => rule.id == ruleID) with
    | none => (.text ("Rule \x27" ++ ruleID ++ "\x27 not found in community repository."), [])
    | some foundRule =>
      match env.fetchBody foundRule.path with
      | .error e => (.error ("Failed to fetch rule content: " ++ e), [])
      | .ok yamlContent =>
        match validateAstGrepRule env.parse yamlContent with
        | .error e => (.error ("Invalid rule file for \x27" ++ ruleID ++ "\x27: " ++ e), [])
        | .ok _ =>
          match env.ruleDir with
          | .error e =>
            if strContainsSub e "sgconfig.yml not found" then
              (.text ("Error: " ++ e ++
                ". Please run the \x27initialize_ast_grep\x27 tool first to set up the project."), [])
            else (.error e, [])
          | .ok ruleDir =>
            let ruleFile := ruleDir ++ "/" ++ lastPathPart foundRule.path
            match env.writeErr with
            | some e => (.error ("Error writing rule file: " ++ e), [(ruleFile, yamlContent)])
            | none =>
              (.text ("Rule \x27" ++ ruleID ++
                "\x27 was imported successfully from the community repository to " ++
                ruleFile ++ "."), [(ruleFile, yamlContent)])

/-- C7: a fetched rule body is validated before any write — whenever
validation fails the handler performs zero `WriteFile` calls and surfaces
an error wrapping the validator's message; the validator's message names
the missing field (`language` when the language field is empty, `id` when
the id field is empty); and only after validation succeeds is the body
written, once, to the rule directory under the filename derived from the
entry's stored path. -/
theorem c7_importCommunityRule_spec (env : ImportEnv) (ruleID : String)
    (index : CommunityRuleIndex) (foundRule : CommunityRule) (yamlContent : String) :
    (∀ e, env.fetchIndex = .ok index →
        index.rules.find? (fun rule => rule.id == ruleID) = some foundRule →
        env.fetchBody foundRule.path = .ok yamlContent →
        validateAstGrepRule env.parse yamlContent = .error e →
        importCommunityRuleHandler env ruleID
          = (.error ("Invalid rule file for \x27" ++ ruleID ++ "\x27: " ++ e), []))
  ∧ (∀ r, env.parse yamlContent = .ok r → r.id ≠ "" → r.language = "" →
        validateAstGrepRule env.parse yamlContent
            = .error "rule \x27language\x27 is missing or empty"
        ∧ strContainsSub "rule \x27language\x27 is missing or empty" "language" = true)
  ∧ (∀ r, env.parse yamlContent = .ok r → r.id = "" →
        validateAstGrepRule env.parse yamlContent
            = .error "rule \x27id\x27 is missing or empty"
        ∧ strContainsSub "rule \x27id\x27 is missing or empty" "id" = true)
  ∧ (∀ ruleDir, env.fetchIndex = .ok index →
        index.rules.find? (fun rule => rule.id == ruleID) = some foundRule →
        env.fetchBody foundRule.path = .ok yamlContent →
        validateAstGrepRule env.parse yamlContent = .ok () →
        env.ruleDir = .ok ruleDir → env.writeErr = none →
        importCommunityRuleHandler env ruleID
          = (.text ("Rule \x27" ++ ruleID ++
              "\x27 was imported successfully from the community repository to " ++
              (ruleDir ++ "/" ++ lastPathPart foundRule.path) ++ "."),
             [(ruleDir ++ "/" ++ lastPathPart foundRule.path, yamlContent)])) := by
  refine ⟨?_, ?_, ?_, ?_⟩
  · intro e hidx hfind hbody hval
    simp [importCommunityRuleHandler, hidx, hfind, hbody, hval]
  · intro r hp hid hlangempty
    refine ⟨?_, by decide⟩
    simp [validateAstGrepRule, hp, hid, hlangempty]
  · intro r hp hid
    refine ⟨?_, by decide⟩
    simp [validateAstGrepRule, hp, hid]
  · intro ruleDir hidx hfind hbody hval hdir hw
    simp [importCommunityRuleHandler, hidx, hfind, hbody, hval, hdir, hw]

/-! ## RuleStore (`getRuleDir`, `removeRuleHandler`) -/

/-- The parsed marker configuration (`SgConfig` in server.go): the
`ruleDirs` list. -/
structure SgConfig where
  ruleDirs : List String
deriving DecidableEq

/-- The filesystem oracles of `getRuleDir`: the marker-presence stat, the
file read at a directory, and the YAML decoding of its content. -/
structure RuleDirEnv where
  hasMarker : List String → Bool
  readFile : List String → Except String String
  parseYaml : String → Except String SgConfig

/-- The body `getRuleDir` runs at the directory whose marker stat
succeeded (server.go lines 628-645): read the configuration, parse it,
require a non-empty `ruleDirs` list, and return the first entry (trimmed)
resolved relative to that directory. -/
def readParseAt (env : RuleDirEnv) (d : List String) : Except String (List String) :=
  match env.readFile d with
  | .error e => .error ("error reading sgconfig.yml: " ++ e)
  | .ok data =>
    match env.parseYaml data with
    | .error e => .error ("error parsing sgconfig.yml: " ++ e)
    | .ok config =>
      match config.ruleDirs with
      | [] => .error "ruleDirs not specified in sgconfig.yml"
      | d0 :: _ => .ok (d ++ [strTrim d0])

/-- The walk-up loop of `getRuleDir` (server.go lines 626-655), the same
climb as `findProjectRoot` but parsing the configuration at the directory
where the marker is found. -/
def getRuleDirAux (env : RuleDirEnv) : List String → Except String (List String)
  | [] =>
    if env.hasMarker [] then readParseAt env []
    else .error "sgconfig.yml not found. Please run \x27ast-grep new\x27 to initialize an ast-grep project first"
  | x :: xs =>
    if env.hasMarker (x :: xs) then readParseAt env (x :: xs)
    else getRuleDirAux env (x :: xs).dropLast
termination_by d => d.length
decreasing_by simp [List.dropLast_eq_take]

/-- The outcome of the `os.Remove` call: success, `os.IsNotExist`, or any
other failure. -/
inductive RemoveOutcome where
  | ok
  | notExist
  | failed (msg : String)
deriving DecidableEq

/-- `removeRuleHandler` of server.go lines 658-683: resolve the rule
directory, then remove `<ruleDir>/<ruleID>.yml`; a missing file is an
informational text result, any other removal failure an error result.
The second component records the `os.Remove` target actually attempted
(directory and filename). -/
def removeRuleHandler (env : RuleDirEnv) (start : List String) (ruleID : String)
    (removeF : List String → String → RemoveOutcome) :
    ToolResult × Option (List String × String) :=
  match getRuleDirAux env start with
  | .error e =>
    if strContainsSub e "sgconfig.yml not found" then
      (.text ("Error: " ++ e ++
        ". Please run the \x27initialize_ast_grep\x27 tool first to set up the project."), none)
    else (.error e, none)
  | .ok ruleDir =>
    match removeF ruleDir (ruleID ++ ".yml") with
    | .notExist => (.text ("Rule \x27" ++ ruleID ++ "\x27 not found."), some (ruleDir, ruleID ++ ".yml"))
    | .failed m => (.error ("Error removing rule file: " ++ m), some (ruleDir, ruleID ++ ".yml"))
    | .ok => (.text ("Rule \x27" ++ ruleID ++ "\x27 was removed successfully."), some (ruleDir, ruleID ++ ".yml"))

/-- C8: at the directory holding the marker configuration, an empty
rule-directory list is a configuration error, and otherwise the active
rule directory is the first (trimmed) entry resolved relative to that
directory; removal targets exactly `<ruleDir>/<id>.yml`, reports an absent
file as a non-error informational text, reports any other removal failure
as an error, and reports success as a text result. -/
theorem c8_ruleDir_remove_spec (env : RuleDirEnv) (start : List String) (ruleID : String)
    (removeF : List String → String → RemoveOutcome) :
    (∀ data config, env.hasMarker start = true → env.readFile start = .ok data →
        env.parseYaml data = .ok config → config.ruleDirs = [] →
        getRuleDirAux env start = .error "ruleDirs not specified in sgconfig.yml")
  ∧ (∀ data config d0 rest, env.hasMarker start = true → env.readFile start = .ok data →
        env.parseYaml data = .ok config → config.ruleDirs = d0 :: rest →
        getRuleDirAux env start = .ok (start ++ [strTrim d0]))
  ∧ (∀ ruleDir, getRuleDirAux env start = .ok ruleDir →
        ((removeF ruleDir (ruleID ++ ".yml") = .notExist →
            removeRuleHandler env start ruleID removeF
              = (.text ("Rule \x27" ++ ruleID ++ "\x27 not found."),
                 some (ruleDir, ruleID ++ ".yml")))
          ∧ (∀ m, removeF ruleDir (ruleID ++ ".yml") = .failed m →
              removeRuleHandler env start ruleID removeF
                = (.error ("Error removing rule file: " ++ m),
                   some (ruleDir, ruleID ++ ".yml")))
          ∧ (removeF ruleDir (ruleID ++ ".yml") = .ok →
              removeRuleHandler env start ruleID removeF
                = (.text ("Rule \x27" ++ ruleID ++ "\x27 was removed successfully."),
                   some (ruleDir, ruleID ++ ".yml"))))) := by
  have hunfold : env.hasMarker start = true → getRuleDirAux env start = readParseAt env start := by
    intro hm
    cases start with
    | nil => simp [getRuleDirAux, hm]
    | cons x xs => simp [getRuleDirAux, hm]
  refine ⟨?_, ?_, ?_⟩
  · intro data config hm hread hparse hdirs
    rw [hunfold hm]
    simp [readParseAt, hread, hparse, hdirs]
  · intro data config d0 rest hm hread hparse hdirs
    rw [hunfold hm]
    simp [readParseAt, hread, hparse, hdirs]
  · intro ruleDir hdir
    refine ⟨?_, ?_, ?_⟩
    · intro hrm
      simp [removeRuleHandler, hdir, hrm]
    · intro m hrm
      simp [removeRuleHandler, hdir, hrm]
    · intro hrm
      simp [removeRuleHandler, hdir, hrm]
